import Mathlib

/- Verification development for the magic-wormhole.rs reactor (src/io.rs,
   feature io-blocking) and the word list utility (src/core/wordlist.rs).
   Strings are modelled as lists of characters, handles as natural numbers,
   and f64 durations as NaN, a signed infinity, or an exact rational. -/

/-- Wire frame variants of the tungstenite Message type, as matched by the
inbound loop of ws_connector (src/io.rs lines 54 to 75). -/
inductive WSMessage where
  | Text (t : List Char)
  | Close (info : Option (List Char))
  | Ping (p : List Char)
  | Pong (p : List Char)
  | Binary (b : List Char)
deriving DecidableEq

/-- IOEvent from crate core, the events the reactor sends back to the core. -/
inductive IOEvent where
  | TimerExpired (h : Nat)
  | WebSocketConnectionMade (h : Nat)
  | WebSocketMessageReceived (h : Nat) (text : List Char)
  | WebSocketConnectionLost (h : Nat)
deriving DecidableEq

/-- The f64 duration domain: NaN, a signed infinity, or a finite value held as
an exact rational. -/
inductive F64 where
  | nan
  | inf (neg : Bool)
  | finite (q : Rat)
deriving DecidableEq

/-- IOAction from crate core, the five actions the core hands to the reactor. -/
inductive IOAction where
  | StartTimer (h : Nat) (d : F64)
  | CancelTimer (h : Nat)
  | WebSocketOpen (h : Nat) (url : List Char)
  | WebSocketSendMessage (h : Nat) (msg : List Char)
  | WebSocketClose (h : Nat)
deriving DecidableEq

/-- WSControl (src/io.rs lines 28 to 31): the messages the dispatcher enqueues
on a connection's outbound channel. -/
inductive WSControl where
  | Data (d : List Char)
  | Close
deriving DecidableEq

/-- Largest value of the Rust u64 type. -/
def u64Max : Nat := 2 ^ 64 - 1

/-- The multiplication duration * 1000.0 in the StartTimer arm (src/io.rs line
131). IEEE rounding of the product is elided and the exact rational product is
kept: only the sign, the NaN-ness and the magnitude class of the result are
consumed by the saturating cast, and round to nearest preserves all three (a
tiny negative product may round to negative zero, which the cast sends to 0
exactly as the exact negative rational is). -/
def f64Mul1000 : F64 → F64
  | F64.nan => F64.nan
  | F64.inf s => F64.inf s
  | F64.finite q => F64.finite (1000 * q)

/-- The Rust cast expression x as u64 for a floating x, which saturates: NaN
goes to 0, anything below zero goes to 0, anything above u64Max goes to u64Max,
and the fractional part is truncated (for nonnegative values truncation is the
floor). -/
def f64AsU64 : F64 → Nat
  | F64.nan => 0
  | F64.inf true => 0
  | F64.inf false => u64Max
  | F64.finite q => if q < 0 then 0 else min q.floor.toNat u64Max

/-- Does an f64 value hold a negative quantity (negative zero is finite 0 here
and counts as not negative, matching what the cast does with it). -/
def f64IsNeg : F64 → Bool
  | F64.nan => false
  | F64.inf s => s
  | F64.finite q => decide (q < 0)

/-- dur_ms of the spawned timer task (src/io.rs line 131): the sleep length in
milliseconds computed from the fractional seconds input. -/
def durMs (d : F64) : Nat := f64AsU64 (f64Mul1000 d)

/-- Translation of one inbound wire frame by the inbound loop (src/io.rs lines
52 to 75): the body of the try_filter_map closure. -/
def translateMessage (handle : Nat) : WSMessage → Option IOEvent
  | WSMessage.Text t => some (IOEvent.WebSocketMessageReceived handle t)
  | WSMessage.Close _ => some (IOEvent.WebSocketConnectionLost handle)
  | WSMessage.Ping _ => none
  | WSMessage.Pong _ => none
  | WSMessage.Binary _ => none

/-- The inbound loop forwards the translated frames, kept ones in order, into
the event channel (src/io.rs lines 51 to 81). -/
def inboundEvents (handle : Nat) (frames : List WSMessage) : List IOEvent :=
  frames.filterMap (translateMessage handle)

/-- State of the AsyncStd reactor (the struct at src/io.rs lines 102 to 106),
extended with the observable footprint of its spawned tasks: timers is the
TimerHandle hash set registry, websockets the key set of the websockets hash
map registry, chans the contents of each connection's outbound WSControl
channel (the map value is a sender for that channel), sleeping the timer tasks
spawned and not yet elapsed, and events what has been sent on tx_to_core. -/
structure ReactorState where
  timers : List Nat
  websockets : List Nat
  chans : List (Nat × List WSControl)
  sleeping : List Nat
  events : List IOEvent
deriving DecidableEq

/-- HashSet insert on a duplicate free list of keys. -/
def hsInsert (l : List Nat) (h : Nat) : List Nat :=
  if h ∈ l then l else h :: l

/-- Association list lookup, modelling HashMap get. -/
def alistLookup {α : Type} : List (Nat × α) → Nat → Option α
  | [], _ => none
  | (k, v) :: rest, h => if k = h then some v else alistLookup rest h

/-- Association list insert or replace, modelling HashMap insert. -/
def alistInsert {α : Type} : List (Nat × α) → Nat → α → List (Nat × α)
  | [], h, v => [(h, v)]
  | (k, w) :: rest, h, v =>
    if k = h then (h, v) :: rest else (k, w) :: alistInsert rest h v

/-- Append one control message to the channel of the given handle; a missing
channel leaves everything unchanged (the guarded callers never hit that case). -/
def chanPush : List (Nat × List WSControl) → Nat → WSControl → List (Nat × List WSControl)
  | [], _, _ => []
  | (k, q) :: rest, h, c =>
    if k = h then (k, q ++ [c]) :: rest else (k, q) :: chanPush rest h c

/-- Environment abstracting connect_async (src/io.rs line 46): whether
establishing a connection to a given url succeeds. -/
structure ConnEnv where
  connectOK : List Char → Bool

/-- Result of one process call: ok is a normal return; panicked is an unwrap
failure unwinding out of process, carrying the state with the mutations already
performed when the panic happened. -/
inductive ProcResult where
  | ok (s : ReactorState)
  | panicked (s : ReactorState)
deriving DecidableEq

def stateOf : ProcResult → ReactorState
  | ProcResult.ok s => s
  | ProcResult.panicked s => s

def isPanicked : ProcResult → Bool
  | ProcResult.ok _ => false
  | ProcResult.panicked _ => true

/-- WormholeIO process for the AsyncStd reactor (src/io.rs lines 121 to 158).
StartTimer inserts the handle into the timers set and spawns a sleeping task
(whose later completion is the elapse step below); the duration is only read
inside that task. CancelTimer removes the handle from the timers set.
WebSocketOpen inserts the handle into the websockets map with a fresh channel
and then blocks on ws_connector: on connect_async success the connector emits
WebSocketConnectionMade and spawns the two forwarding loops, on failure the
unwrap at src/io.rs line 46 panics with the insertion already done.
WebSocketSendMessage and WebSocketClose unwrap the registry lookup, panicking
on an unknown handle before any mutation, and otherwise enqueue Data or Close
on the handle's channel; WebSocketClose then removes the handle from the map. -/
def process (env : ConnEnv) (s : ReactorState) (a : IOAction) : ProcResult :=
  match a with
  | IOAction.StartTimer h _ =>
    ProcResult.ok { s with timers := hsInsert s.timers h,
                           sleeping := s.sleeping ++ [h] }
  | IOAction.CancelTimer h =>
    ProcResult.ok { s with timers := s.timers.erase h }
  | IOAction.WebSocketOpen h url =>
    let s1 := { s with websockets := hsInsert s.websockets h,
                       chans := alistInsert s.chans h [] }
    if env.connectOK url then
      ProcResult.ok { s1 with events := s1.events ++ [IOEvent.WebSocketConnectionMade h] }
    else
      ProcResult.panicked s1
  | IOAction.WebSocketSendMessage h msg =>
    if h ∈ s.websockets then
      ProcResult.ok { s with chans := chanPush s.chans h (WSControl.Data msg) }
    else
      ProcResult.panicked s
  | IOAction.WebSocketClose h =>
    if h ∈ s.websockets then
      ProcResult.ok { s with chans := chanPush s.chans h WSControl.Close,
                             websockets := s.websockets.erase h }
    else
      ProcResult.panicked s

/-- The tail of a spawned timer task (src/io.rs lines 128 to 135): when its
sleep elapses it sends TimerExpired for its handle unconditionally — the task
captured only the event channel and the handle and has no access to the timers
registry. A task can only elapse if it was spawned and has not elapsed yet. -/
def elapse (s : ReactorState) (h : Nat) : ReactorState :=
  if h ∈ s.sleeping then
    { s with sleeping := s.sleeping.erase h,
             events := s.events ++ [IOEvent.TimerExpired h] }
  else s

/-- Result of feeding a list of actions through process from the core's
synchronous loop. -/
inductive RunResult where
  | done (s : ReactorState)
  | aborted (s : ReactorState) (remaining : List IOAction)
deriving DecidableEq

/-- The core's synchronous loop feeding actions to process in order: a panic
unwinds out of process into the loop, so the remaining actions are never
processed. -/
def runActions (env : ConnEnv) : ReactorState → List IOAction → RunResult
  | s, [] => RunResult.done s
  | s, a :: rest =>
    match process env s a with
    | ProcResult.ok s' => runActions env s' rest
    | ProcResult.panicked s' => RunResult.aborted s' rest

/-- What the calling context of process awaits before the call returns. -/
inductive CallerWait where
  | handoffOnly
  | networkConnect
deriving DecidableEq

/-- Per arm of the match in process (src/io.rs lines 124 to 157): StartTimer
spawns a task and returns (line 128); CancelTimer is pure (line 138);
WebSocketOpen runs block_on over ws_connector, which awaits connect_async on
the url — network connection establishment — before returning (lines 144 to
146 and line 46); WebSocketSendMessage and WebSocketClose run block_on over a
send on an unbounded in-process channel, a hand-off that never awaits the
network (lines 149 to 154). -/
def callerWait : IOAction → CallerWait
  | IOAction.WebSocketOpen _ _ => CallerWait.networkConnect
  | _ => CallerWait.handoffOnly

def isOpenAction : IOAction → Bool
  | IOAction.WebSocketOpen _ _ => true
  | _ => false

def actionHandle : IOAction → Nat
  | IOAction.StartTimer h _ => h
  | IOAction.CancelTimer h => h
  | IOAction.WebSocketOpen h _ => h
  | IOAction.WebSocketSendMessage h _ => h
  | IOAction.WebSocketClose h => h

def isTimerAction : IOAction → Bool
  | IOAction.StartTimer _ _ => true
  | IOAction.CancelTimer _ => true
  | _ => false

/-- Wordlist (src/core/wordlist.rs lines 5 to 9): num_words word slots drawn
from a table of columns. -/
structure Wordlist where
  num_words : Nat
  words : List (List (List Char))
deriving DecidableEq

/-- The dash count of the input (src/core/wordlist.rs line 24). -/
def countDashes (s : List Char) : Nat :=
  (s.filter (fun c => c == '-')).length

/-- str rsplit_once at the dash character (src/core/wordlist.rs line 27):
splits at the last dash, none when the string has no dash. -/
def rsplitOnceDash : List Char → Option (List Char × List Char)
  | [] => none
  | c :: rest =>
    match rsplitOnceDash rest with
    | some p => some (c :: p.1, p.2)
    | none => if c = '-' then some ([], rest) else none

/-- Wordlist get_completions (src/core/wordlist.rs lines 23 to 51) with the
fuzzy-complete feature disabled, so the exact matching branch is taken. Returns
none where the Rust code panics indexing an empty words table. -/
def get_completions (wl : Wordlist) (pfx : List Char) : Option (List (List Char)) :=
  (wl.words.get? (countDashes pfx % wl.words.length)).map (fun column =>
    let pieces := (rsplitOnceDash pfx).getD ([], pfx)
    let found := column.filter (fun w => pieces.2.isPrefixOf w)
    found.map (fun w =>
      pieces.1 ++ (if pieces.1 = [] then [] else ['-']) ++ w))

/-- Characters of s after its last dash, the whole of s when it has no dash:
the claim's reading of the last partial segment. -/
def afterLastDash (s : List Char) : List Char :=
  (s.reverse.takeWhile (fun c => c != '-')).reverse

/-- Characters of s before its last dash, empty when s has no dash: the
claim's reading of the completed part of the input. -/
def beforeLastDash (s : List Char) : List Char :=
  ((s.reverse.dropWhile (fun c => c != '-')).drop 1).reverse

/-- The completion list as the claim words it: one entry per word of the
column indexed by the dash count modulo the number of columns that starts with
the segment after the last dash, each entry being the part before the last
dash, then a dash when that part is nonempty, then the word. -/
def completions_spec (wl : Wordlist) (pfx : List Char) : List (List Char) :=
  let column := (wl.words.get? (countDashes pfx % wl.words.length)).getD []
  let before := beforeLastDash pfx
  (column.filter (fun w => (afterLastDash pfx).isPrefixOf w)).map
    (fun w => before ++ (if before = [] then [] else ['-']) ++ w)

/-- SliceRandom choose on a column: none on an empty slice, otherwise some
element; the random draw is abstracted into the caller supplied index r. -/
def sliceChoose (r : Nat) (col : List (List Char)) : Option (List Char) :=
  col.get? (r % col.length)

/-- words iter cycle take num_words (src/core/wordlist.rs lines 77 to 81): the
cycle of an empty iterator is empty, otherwise column i modulo the number of
columns at position i. -/
def cycleTake (wl : Wordlist) : List (List (List Char)) :=
  if wl.words.length = 0 then []
  else (List.range wl.num_words).map (fun i => (wl.words.get? (i % wl.words.length)).getD [])

/-- One random draw per column, consumed left to right; none as soon as a draw
fails (the unwrap inside the Rust map panics on the first empty column). -/
def chooseAll (sel : Nat → Nat) : Nat → List (List (List Char)) → Option (List (List Char))
  | _, [] => some []
  | i, col :: rest =>
    match sliceChoose (sel i) col, chooseAll sel (i + 1) rest with
    | some w, some ws => some (w :: ws)
    | _, _ => none

/-- Vec join with a dash separator. -/
def joinDash : List (List Char) → List Char
  | [] => []
  | [x] => x
  | x :: y :: rest => x ++ '-' :: joinDash (y :: rest)

/-- Wordlist choose_words (src/core/wordlist.rs lines 75 to 85); sel abstracts
the OsRng draws, sel i being the draw used for the component at position i. -/
def choose_words (wl : Wordlist) (sel : Nat → Nat) : Option (List Char) :=
  (chooseAll sel 0 (cycleTake wl)).map joinDash

/-- The component list the claim describes, position by position: starting at
position i, each column contributes the element its draw selects. -/
def chosenFrom (sel : Nat → Nat) : Nat → List (List (List Char)) → List (List Char)
  | _, [] => []
  | i, col :: rest => (col.get? (sel i % col.length)).getD [] :: chosenFrom sel (i + 1) rest

/-- The components choose_words joins, as the claim describes them. -/
def chosenComponents (wl : Wordlist) (sel : Nat → Nat) : List (List Char) :=
  chosenFrom sel 0 (cycleTake wl)

/-- Concrete empty reactor state for witnesses. -/
def state0 : ReactorState := ⟨[], [], [], [], []⟩

/-- Environment where every connection attempt succeeds. -/
def envOK : ConnEnv := ⟨fun _ => true⟩

/-- Environment where every connection attempt fails. -/
def envFail : ConnEnv := ⟨fun _ => false⟩

lemma mem_hsInsert_self (l : List Nat) (h : Nat) : h ∈ hsInsert l h := by
  unfold hsInsert
  split
  · assumption
  · exact List.mem_cons_self h l

lemma mem_hsInsert_ne (l : List Nat) (h g : Nat) (hne : g ≠ h) :
    (g ∈ hsInsert l h) ↔ g ∈ l := by
  unfold hsInsert
  split
  · exact Iff.rfl
  · simp [List.mem_cons, hne]

lemma alistLookup_insert_self {α : Type} (l : List (Nat × α)) (h : Nat) (v : α) :
    alistLookup (alistInsert l h v) h = some v := by
  induction l with
  | nil => simp [alistInsert, alistLookup]
  | cons p rest ih =>
    obtain ⟨k, w⟩ := p
    by_cases hk : k = h
    · subst hk
      simp [alistInsert, alistLookup]
    · simp [alistInsert, alistLookup, hk, ih]

lemma alistLookup_insert_ne {α : Type} (l : List (Nat × α)) (h g : Nat) (v : α)
    (hne : g ≠ h) :
    alistLookup (alistInsert l h v) g = alistLookup l g := by
  induction l with
  | nil => simp [alistInsert, alistLookup, Ne.symm hne]
  | cons p rest ih =>
    obtain ⟨k, w⟩ := p
    by_cases hk : k = h
    · subst hk
      simp [alistInsert, alistLookup, Ne.symm hne]
    · by_cases hkg : k = g <;> simp [alistInsert, alistLookup, hk, hkg, hne, ih]

lemma chanPush_lookup_ne (l : List (Nat × List WSControl)) (h g : Nat)
    (c : WSControl) (hne : g ≠ h) :
    alistLookup (chanPush l h c) g = alistLookup l g := by
  induction l with
  | nil => simp [chanPush]
  | cons p rest ih =>
    obtain ⟨k, q⟩ := p
    by_cases hk : k = h
    · subst hk
      simp [chanPush, alistLookup, Ne.symm hne]
    · by_cases hkg : k = g <;> simp [chanPush, alistLookup, hk, hkg, hne, ih]

lemma chanPush_lookup_self (l : List (Nat × List WSControl)) (h : Nat)
    (c : WSControl) (q : List WSControl) (hq : alistLookup l h = some q) :
    alistLookup (chanPush l h c) h = some (q ++ [c]) := by
  induction l with
  | nil => simp [alistLookup] at hq
  | cons p rest ih =>
    obtain ⟨k, w⟩ := p
    by_cases hk : k = h
    · subst hk
      simp [alistLookup] at hq
      subst hq
      simp [chanPush, alistLookup]
    · simp [alistLookup, hk] at hq
      simp [chanPush, alistLookup, hk, ih hq]

/-- C8: the wait length dur_ms computed by the StartTimer task from the
fractional seconds input is always a defined natural number of milliseconds in
the u64 range, and a NaN or negative duration is clamped to a zero wait by the
saturating Rust float to u64 cast. -/
theorem timer_duration_clamped (d : F64) :
    durMs d ≤ u64Max ∧ ((d = F64.nan ∨ f64IsNeg d = true) → durMs d = 0) := by
  constructor
  · cases d with
    | nan => simp [durMs, f64Mul1000, f64AsU64]
    | inf s => cases s <;> simp [durMs, f64Mul1000, f64AsU64]
    | finite q =>
      simp only [durMs, f64Mul1000, f64AsU64]
      split
      · exact Nat.zero_le _
      · exact min_le_right _ _
  · intro hng
    cases d with
    | nan => simp [durMs, f64Mul1000, f64AsU64]
    | inf s =>
      rcases hng with hn | hs
      · exact absurd hn (by simp)
      · simp only [f64IsNeg] at hs
        subst hs
        simp [durMs, f64Mul1000, f64AsU64]
    | finite q =>
      rcases hng with hn | hs
      · exact absurd hn (by simp)
      · simp only [f64IsNeg, decide_eq_true_eq] at hs
        have hneg : (1000 : Rat) * q < 0 :=
          mul_neg_of_pos_of_neg (by norm_num) hs
        simp [durMs, f64Mul1000, f64AsU64, hneg]

/-- C8 witness: the negative infinity duration yields a zero millisecond wait. -/
theorem timer_duration_clamped_witness : durMs (F64.inf true) = 0 :=
  (timer_duration_clamped (F64.inf true)).2 (Or.inr rfl)

/-- C1 (code bug): start timer 1, cancel it strictly before its suspension
elapses — handle 1 is indeed no longer in the timers registry — yet when the
spawned task's sleep elapses it still emits TimerExpired 1, because the task
never consults the registry (src/io.rs lines 128 to 135). -/
theorem cancelled_timer_still_fires :
    ¬ (1 ∈ (stateOf (process envOK (stateOf (process envOK state0
        (IOAction.StartTimer 1 (F64.finite 1)))) (IOAction.CancelTimer 1))).timers) ∧
    (elapse (stateOf (process envOK (stateOf (process envOK state0
        (IOAction.StartTimer 1 (F64.finite 1)))) (IOAction.CancelTimer 1))) 1).events =
      [IOEvent.TimerExpired 1] := by
  decide

/-- C2 counterexample: with connection establishment failing, processing
WebSocketOpen for handle 7 panics while the websockets registry still contains
the entry for 7 — the registration is not rolled back. -/
theorem open_failure_rollback_cex :
    isPanicked (process envFail state0 (IOAction.WebSocketOpen 7 ['u'])) = true ∧
    7 ∈ (stateOf (process envFail state0 (IOAction.WebSocketOpen 7 ['u']))).websockets := by
  decide

/-- C2 amended: when connection establishment fails, process panics — the
failure is surfaced as a fatal error, neither retried nor swallowed — but the
registry entry made for the handle is not rolled back: the panicked state still
holds the handle with its fresh empty channel. -/
theorem open_failure_panics_entry_remains (env : ConnEnv) (s : ReactorState)
    (h : Nat) (url : List Char) (hf : env.connectOK url = false) :
    isPanicked (process env s (IOAction.WebSocketOpen h url)) = true ∧
    h ∈ (stateOf (process env s (IOAction.WebSocketOpen h url))).websockets ∧
    alistLookup (stateOf (process env s (IOAction.WebSocketOpen h url))).chans h = some [] := by
  simp only [process, hf, Bool.false_eq_true, if_false]
  exact ⟨rfl, mem_hsInsert_self _ _, alistLookup_insert_self _ _ _⟩

/-- C2 amended witness at a concrete failing open. -/
theorem open_failure_panics_entry_remains_witness :
    isPanicked (process envFail state0 (IOAction.WebSocketOpen 9 ['u'])) = true ∧
    9 ∈ (stateOf (process envFail state0 (IOAction.WebSocketOpen 9 ['u']))).websockets ∧
    alistLookup (stateOf (process envFail state0 (IOAction.WebSocketOpen 9 ['u']))).chans 9 = some [] :=
  open_failure_panics_entry_remains envFail state0 9 ['u'] rfl

/-- C3 counterexample: processing WebSocketOpen makes the caller wait on
network connection establishment, not merely on a hand-off. -/
theorem open_blocks_caller_cex :
    callerWait (IOAction.WebSocketOpen 1 ['u']) ≠ CallerWait.handoffOnly := by
  decide

/-- C3 amended: the hand-off discipline is not uniform across the five action
variants: the caller is made to wait on network connection establishment
exactly for the WebSocketOpen variant, while the other four only complete a
hand-off. -/
theorem caller_wait_open_only (a : IOAction) :
    callerWait a = CallerWait.networkConnect ↔ isOpenAction a = true := by
  cases a <;> simp [callerWait, isOpenAction]

/-- C4: the inbound loop translates a text frame to WebSocketMessageReceived
with the same payload, a close frame to WebSocketConnectionLost, and ping, pong
and binary frames to no event at all. -/
theorem inbound_frame_translation (h : Nat) (t : List Char)
    (info : Option (List Char)) (p q b : List Char) :
    translateMessage h (WSMessage.Text t) = some (IOEvent.WebSocketMessageReceived h t) ∧
    translateMessage h (WSMessage.Close info) = some (IOEvent.WebSocketConnectionLost h) ∧
    translateMessage h (WSMessage.Ping p) = none ∧
    translateMessage h (WSMessage.Pong q) = none ∧
    translateMessage h (WSMessage.Binary b) = none :=
  ⟨rfl, rfl, rfl, rfl, rfl⟩

/-- C5: sending on or closing a handle that is not in the websockets registry
makes process panic at the unwrap of the registry lookup, with the state
untouched: the operation aborts with an identifiable failure and the request
is never silently dropped. -/
theorem unknown_handle_send_close_panics (env : ConnEnv) (s : ReactorState)
    (h : Nat) (msg : List Char) (hh : h ∉ s.websockets) :
    process env s (IOAction.WebSocketSendMessage h msg) = ProcResult.panicked s ∧
    process env s (IOAction.WebSocketClose h) = ProcResult.panicked s := by
  constructor <;> simp [process, hh]

/-- C5 witness at a concrete unknown handle. -/
theorem unknown_handle_send_close_panics_witness :
    process envOK state0 (IOAction.WebSocketSendMessage 3 ['x']) = ProcResult.panicked state0 ∧
    process envOK state0 (IOAction.WebSocketClose 3) = ProcResult.panicked state0 :=
  unknown_handle_send_close_panics envOK state0 3 ['x'] (by decide)

/-- C6 counterexample: a fatal unknown-handle send panics out of process and
aborts the run; the subsequent CancelTimer 2 action is left unprocessed, so the
fatal error did not abort only the operation that triggered it. -/
theorem fatal_error_stops_reactor_cex :
    runActions envOK state0 [IOAction.WebSocketSendMessage 1 ['x'], IOAction.CancelTimer 2] =
      RunResult.aborted state0 [IOAction.CancelTimer 2] := by
  decide

/-- C6 amended: each of the three fatal-error kinds — a failing connection
establishment on WebSocketOpen, an unknown-handle WebSocketSendMessage and an
unknown-handle WebSocketClose — panics out of process and aborts the reactor's
whole run at that point: every queued subsequent action remains unprocessed.
For the failed open the aborted state still carries the inserted registry
entry; for the unknown-handle operations the state is untouched. -/
theorem fatal_error_aborts_run (env : ConnEnv) (s : ReactorState) (h : Nat)
    (url msg : List Char) (rest : List IOAction)
    (hf : env.connectOK url = false) (hh : h ∉ s.websockets) :
    runActions env s (IOAction.WebSocketOpen h url :: rest) =
      RunResult.aborted { s with websockets := hsInsert s.websockets h,
                                 chans := alistInsert s.chans h [] } rest ∧
    runActions env s (IOAction.WebSocketSendMessage h msg :: rest) =
      RunResult.aborted s rest ∧
    runActions env s (IOAction.WebSocketClose h :: rest) =
      RunResult.aborted s rest := by
  refine ⟨?_, ?_, ?_⟩
  · simp [runActions, process, hf]
  · simp [runActions, process, hh]
  · simp [runActions, process, hh]

/-- C6 amended witness at a concrete run for each of the three fatal kinds. -/
theorem fatal_error_aborts_run_witness :
    runActions envFail state0 [IOAction.WebSocketOpen 4 ['u'], IOAction.CancelTimer 5] =
      RunResult.aborted { state0 with websockets := hsInsert state0.websockets 4,
                                      chans := alistInsert state0.chans 4 [] }
        [IOAction.CancelTimer 5] ∧
    runActions envFail state0 [IOAction.WebSocketSendMessage 4 ['x'], IOAction.CancelTimer 5] =
      RunResult.aborted state0 [IOAction.CancelTimer 5] ∧
    runActions envFail state0 [IOAction.WebSocketClose 4, IOAction.CancelTimer 5] =
      RunResult.aborted state0 [IOAction.CancelTimer 5] :=
  fatal_error_aborts_run envFail state0 4 ['u'] ['x'] [IOAction.CancelTimer 5] rfl (by decide)

/-- C7: a successfully processed action touches at most its own handle's entry
in its own kind's registry: every other handle keeps its timer membership, its
websocket membership and its channel contents; a timer action leaves the
websocket side untouched and a websocket action the timer side; WebSocketClose
appends a close request to the handle's outbound channel and removes exactly
that handle from the websockets registry; CancelTimer removes exactly that
handle from the timers set and leaves the websocket side untouched. -/
theorem process_frame_effect (env : ConnEnv) (s : ReactorState) (a : IOAction)
    (s' : ReactorState) (hok : process env s a = ProcResult.ok s') :
    (∀ g, g ≠ actionHandle a →
      ((g ∈ s'.timers) ↔ (g ∈ s.timers)) ∧
      ((g ∈ s'.websockets) ↔ (g ∈ s.websockets)) ∧
      alistLookup s'.chans g = alistLookup s.chans g) ∧
    (isTimerAction a = true → s'.websockets = s.websockets ∧ s'.chans = s.chans) ∧
    (isTimerAction a = false → s'.timers = s.timers) ∧
    (∀ h q, a = IOAction.WebSocketClose h → alistLookup s.chans h = some q →
      alistLookup s'.chans h = some (q ++ [WSControl.Close]) ∧
      s'.websockets = s.websockets.erase h) ∧
    (∀ h, a = IOAction.CancelTimer h →
      s'.timers = s.timers.erase h ∧ s'.websockets = s.websockets ∧ s'.chans = s.chans) := by
  cases a with
  | StartTimer h d =>
    simp only [process, ProcResult.ok.injEq] at hok
    subst hok
    refine ⟨?_, ?_, ?_, ?_, ?_⟩
    · intro g hg
      simp only [actionHandle] at hg
      exact ⟨mem_hsInsert_ne _ _ _ hg, Iff.rfl, rfl⟩
    · intro _
      exact ⟨rfl, rfl⟩
    · intro hfalse
      simp [isTimerAction] at hfalse
    · intro h' q heq
      cases heq
    · intro h' heq
      cases heq
  | CancelTimer h =>
    simp only [process, ProcResult.ok.injEq] at hok
    subst hok
    refine ⟨?_, ?_, ?_, ?_, ?_⟩
    · intro g hg
      simp only [actionHandle] at hg
      exact ⟨List.mem_erase_of_ne hg, Iff.rfl, rfl⟩
    · intro _
      exact ⟨rfl, rfl⟩
    · intro hfalse
      simp [isTimerAction] at hfalse
    · intro h' q heq
      cases heq
    · intro h' heq
      injection heq with hh
      subst hh
      exact ⟨rfl, rfl, rfl⟩
  | WebSocketOpen h url =>
    simp only [process] at hok
    split at hok
    · simp only [ProcResult.ok.injEq] at hok
      subst hok
      refine ⟨?_, ?_, ?_, ?_, ?_⟩
      · intro g hg
        simp only [actionHandle] at hg
        exact ⟨Iff.rfl, mem_hsInsert_ne _ _ _ hg, alistLookup_insert_ne _ _ _ _ hg⟩
      · intro hfalse
        simp [isTimerAction] at hfalse
      · intro _
        rfl
      · intro h' q heq
        cases heq
      · intro h' heq
        cases heq
    · cases hok
  | WebSocketSendMessage h msg =>
    simp only [process] at hok
    split at hok
    · simp only [ProcResult.ok.injEq] at hok
      subst hok
      refine ⟨?_, ?_, ?_, ?_, ?_⟩
      · intro g hg
        simp only [actionHandle] at hg
        exact ⟨Iff.rfl, Iff.rfl, chanPush_lookup_ne _ _ _ _ hg⟩
      · intro hfalse
        simp [isTimerAction] at hfalse
      · intro _
        rfl
      · intro h' q heq
        cases heq
      · intro h' heq
        cases heq
    · cases hok
  | WebSocketClose h =>
    simp only [process] at hok
    split at hok
    · simp only [ProcResult.ok.injEq] at hok
      subst hok
      refine ⟨?_, ?_, ?_, ?_, ?_⟩
      · intro g hg
        simp only [actionHandle] at hg
        exact ⟨Iff.rfl, List.mem_erase_of_ne hg, chanPush_lookup_ne _ _ _ _ hg⟩
      · intro hfalse
        simp [isTimerAction] at hfalse
      · intro _
        rfl
      · intro h' q heq hq
        injection heq with hh
        subst hh
        exact ⟨chanPush_lookup_self _ _ _ _ hq, rfl⟩
      · intro h' heq
        cases heq
    · cases hok

/-- Concrete state with two registered timers for the C7 witness. -/
def state1 : ReactorState := ⟨[1, 2], [], [], [], []⟩

/-- C7 witness: cancelling timer 1 on a state with timers 1 and 2 removes
exactly 1 and leaves the websocket side untouched. -/
theorem process_frame_effect_witness :
    (stateOf (process envOK state1 (IOAction.CancelTimer 1))).timers = state1.timers.erase 1 ∧
    (stateOf (process envOK state1 (IOAction.CancelTimer 1))).websockets = state1.websockets ∧
    (stateOf (process envOK state1 (IOAction.CancelTimer 1))).chans = state1.chans :=
  (process_frame_effect envOK state1 (IOAction.CancelTimer 1)
    (stateOf (process envOK state1 (IOAction.CancelTimer 1))) rfl).2.2.2.2 1 rfl

lemma takeWhile_all {α : Type} (p : α → Bool) (l : List α)
    (hall : ∀ x ∈ l, p x = true) : l.takeWhile p = l := by
  induction l with
  | nil => rfl
  | cons x rest ih =>
    rw [List.takeWhile_cons_of_pos (hall x (List.mem_cons_self x rest)),
        ih (fun y hy => hall y (List.mem_cons_of_mem x hy))]

lemma dropWhile_all {α : Type} (p : α → Bool) (l : List α)
    (hall : ∀ x ∈ l, p x = true) : l.dropWhile p = [] := by
  induction l with
  | nil => rfl
  | cons x rest ih =>
    rw [List.dropWhile_cons_of_pos (hall x (List.mem_cons_self x rest)),
        ih (fun y hy => hall y (List.mem_cons_of_mem x hy))]

lemma takeWhile_append_of_all {α : Type} (p : α → Bool) (l m : List α)
    (hall : ∀ x ∈ l, p x = true) :
    (l ++ m).takeWhile p = l ++ m.takeWhile p := by
  induction l with
  | nil => simp
  | cons x rest ih =>
    rw [List.cons_append, List.takeWhile_cons_of_pos (hall x (List.mem_cons_self x rest)),
        ih (fun y hy => hall y (List.mem_cons_of_mem x hy)), List.cons_append]

lemma dropWhile_append_of_all {α : Type} (p : α → Bool) (l m : List α)
    (hall : ∀ x ∈ l, p x = true) :
    (l ++ m).dropWhile p = m.dropWhile p := by
  induction l with
  | nil => simp
  | cons x rest ih =>
    rw [List.cons_append, List.dropWhile_cons_of_pos (hall x (List.mem_cons_self x rest)),
        ih (fun y hy => hall y (List.mem_cons_of_mem x hy))]

lemma takeWhile_append_of_stop {α : Type} (p : α → Bool) (l m : List α)
    (hstop : ∃ x ∈ l, p x = false) :
    (l ++ m).takeWhile p = l.takeWhile p := by
  induction l with
  | nil =>
    obtain ⟨x, hx, _⟩ := hstop
    cases hx
  | cons x rest ih =>
    by_cases hx : p x = true
    · have hrest : ∃ y ∈ rest, p y = false := by
        obtain ⟨y, hy, hpy⟩ := hstop
        rcases List.mem_cons.mp hy with he | hm
        · subst he
          rw [hx] at hpy
          cases hpy
        · exact ⟨y, hm, hpy⟩
      rw [List.cons_append, List.takeWhile_cons_of_pos hx,
          List.takeWhile_cons_of_pos hx, ih hrest]
    · rw [List.cons_append, List.takeWhile_cons_of_neg hx, List.takeWhile_cons_of_neg hx]

lemma dropWhile_append_of_stop {α : Type} (p : α → Bool) (l m : List α)
    (hstop : ∃ x ∈ l, p x = false) :
    (l ++ m).dropWhile p = l.dropWhile p ++ m := by
  induction l with
  | nil =>
    obtain ⟨x, hx, _⟩ := hstop
    cases hx
  | cons x rest ih =>
    by_cases hx : p x = true
    · have hrest : ∃ y ∈ rest, p y = false := by
        obtain ⟨y, hy, hpy⟩ := hstop
        rcases List.mem_cons.mp hy with he | hm
        · subst he
          rw [hx] at hpy
          cases hpy
        · exact ⟨y, hm, hpy⟩
      rw [List.cons_append, List.dropWhile_cons_of_pos hx,
          List.dropWhile_cons_of_pos hx, ih hrest]
    · rw [List.cons_append, List.dropWhile_cons_of_neg hx, List.dropWhile_cons_of_neg hx,
          List.cons_append]

lemma dropWhile_ne_nil_of_stop {α : Type} (p : α → Bool) (l : List α)
    (hstop : ∃ x ∈ l, p x = false) :
    l.dropWhile p ≠ [] := by
  induction l with
  | nil =>
    obtain ⟨x, hx, _⟩ := hstop
    cases hx
  | cons x rest ih =>
    by_cases hx : p x = true
    · have hrest : ∃ y ∈ rest, p y = false := by
        obtain ⟨y, hy, hpy⟩ := hstop
        rcases List.mem_cons.mp hy with he | hm
        · subst he
          rw [hx] at hpy
          cases hpy
        · exact ⟨y, hm, hpy⟩
      rw [List.dropWhile_cons_of_pos hx]
      exact ih hrest
    · rw [List.dropWhile_cons_of_neg hx]
      exact List.cons_ne_nil x rest

lemma drop_one_append {α : Type} (l m : List α) (hl : l ≠ []) :
    (l ++ m).drop 1 = l.drop 1 ++ m := by
  cases l with
  | nil => exact absurd rfl hl
  | cons x rest => simp

lemma all_not_dash (l : List Char) (hnd : '-' ∉ l) :
    ∀ x ∈ l.reverse, (x != '-') = true := by
  intro x hx
  have hxs : x ∈ l := List.mem_reverse.mp hx
  have hxne : x ≠ '-' := fun he => hnd (he ▸ hxs)
  simpa using hxne

lemma afterLastDash_no_dash (s : List Char) (hnd : '-' ∉ s) :
    afterLastDash s = s := by
  unfold afterLastDash
  rw [takeWhile_all _ _ (all_not_dash s hnd), List.reverse_reverse]

lemma beforeLastDash_no_dash (s : List Char) (hnd : '-' ∉ s) :
    beforeLastDash s = [] := by
  unfold beforeLastDash
  rw [dropWhile_all _ _ (all_not_dash s hnd)]
  rfl

lemma dash_stop_in_reverse (rest : List Char) (hr : '-' ∈ rest) :
    ∃ x ∈ rest.reverse, (x != '-') = false :=
  ⟨'-', List.mem_reverse.mpr hr, by simp⟩

lemma afterLastDash_cons_of_dash (c : Char) (rest : List Char) (hr : '-' ∈ rest) :
    afterLastDash (c :: rest) = afterLastDash rest := by
  unfold afterLastDash
  rw [List.reverse_cons, takeWhile_append_of_stop _ _ _ (dash_stop_in_reverse rest hr)]

lemma beforeLastDash_cons_of_dash (c : Char) (rest : List Char) (hr : '-' ∈ rest) :
    beforeLastDash (c :: rest) = c :: beforeLastDash rest := by
  unfold beforeLastDash
  rw [List.reverse_cons, dropWhile_append_of_stop _ _ _ (dash_stop_in_reverse rest hr),
      drop_one_append _ _ (dropWhile_ne_nil_of_stop _ _ (dash_stop_in_reverse rest hr)),
      List.reverse_append]
  rfl

lemma afterLastDash_dash_head (rest : List Char) (hr : '-' ∉ rest) :
    afterLastDash ('-' :: rest) = rest := by
  unfold afterLastDash
  rw [List.reverse_cons, takeWhile_append_of_all _ _ _ (all_not_dash rest hr)]
  simp

lemma beforeLastDash_dash_head (rest : List Char) (hr : '-' ∉ rest) :
    beforeLastDash ('-' :: rest) = [] := by
  unfold beforeLastDash
  rw [List.reverse_cons, dropWhile_append_of_all _ _ _ (all_not_dash rest hr)]
  simp

lemma rsplitOnceDash_no_dash (s : List Char) (hnd : '-' ∉ s) :
    rsplitOnceDash s = none := by
  induction s with
  | nil => rfl
  | cons c rest ih =>
    have hcr : '-' ∉ rest := fun hrr => hnd (List.mem_cons_of_mem c hrr)
    have hc : c ≠ '-' := fun he => hnd (he ▸ List.mem_cons_self c rest)
    simp [rsplitOnceDash, ih hcr, hc]

lemma rsplitOnceDash_dash (s : List Char) (hd : '-' ∈ s) :
    rsplitOnceDash s = some (beforeLastDash s, afterLastDash s) := by
  induction s with
  | nil => cases hd
  | cons c rest ih =>
    by_cases hr : '-' ∈ rest
    · rw [beforeLastDash_cons_of_dash c rest hr, afterLastDash_cons_of_dash c rest hr]
      simp [rsplitOnceDash, ih hr]
    · have hc : c = '-' := by
        rcases List.mem_cons.mp hd with he | hrr
        · exact he.symm
        · exact absurd hrr hr
      subst hc
      rw [beforeLastDash_dash_head rest hr, afterLastDash_dash_head rest hr]
      simp [rsplitOnceDash, rsplitOnceDash_no_dash rest hr]

/-- C9: with a nonempty words table and exact matching, get_completions returns
exactly the completions the claim describes: one per word of the column indexed
by the dash count of the input modulo the number of columns that starts with
the segment of the input after its last dash, each formed as the part of the
input before its last dash, then a dash when that part is nonempty, then the
word. -/
theorem get_completions_exact (wl : Wordlist) (pfx : List Char)
    (hw : wl.words ≠ []) :
    get_completions wl pfx = some (completions_spec wl pfx) := by
  have hlen : 0 < wl.words.length := List.length_pos.mpr hw
  have hidx : countDashes pfx % wl.words.length < wl.words.length :=
    Nat.mod_lt _ hlen
  obtain ⟨col, hcol⟩ : ∃ col, wl.words.get? (countDashes pfx % wl.words.length) = some col :=
    ⟨_, List.get?_eq_get hidx⟩
  unfold get_completions completions_spec
  rw [hcol]
  by_cases hd : '-' ∈ pfx
  · rw [rsplitOnceDash_dash pfx hd]
    rfl
  · rw [rsplitOnceDash_no_dash pfx hd, afterLastDash_no_dash pfx hd,
        beforeLastDash_no_dash pfx hd]
    rfl

/-- Concrete word list for the C9 witness. -/
def wlW : Wordlist := ⟨2, [[['a', 'b'], ['c']], [['d']]]⟩

/-- C9 witness at a concrete word list and input. -/
theorem get_completions_exact_witness :
    get_completions wlW ['a'] = some (completions_spec wlW ['a']) :=
  get_completions_exact wlW ['a'] (by decide)

lemma get_mod_getD_mem (col : List (List Char)) (r : Nat) (hcol : col ≠ []) :
    (col.get? (r % col.length)).getD [] ∈ col := by
  have hlen : 0 < col.length := List.length_pos.mpr hcol
  have hidx : r % col.length < col.length := Nat.mod_lt _ hlen
  rw [List.get?_eq_get hidx, Option.getD_some]
  exact List.get_mem col _ hidx

lemma cycleTake_length (wl : Wordlist) (hw : wl.words ≠ []) :
    (cycleTake wl).length = wl.num_words := by
  unfold cycleTake
  rw [if_neg (fun h0 => hw (List.length_eq_zero.mp h0))]
  simp

lemma cycleTake_cols_ne_nil (wl : Wordlist) (hw : wl.words ≠ [])
    (hcols : ∀ col ∈ wl.words, col ≠ []) :
    ∀ col ∈ cycleTake wl, col ≠ [] := by
  intro col hc
  unfold cycleTake at hc
  rw [if_neg (fun h0 => hw (List.length_eq_zero.mp h0))] at hc
  obtain ⟨i, _, he⟩ := List.mem_map.mp hc
  have hlen : 0 < wl.words.length := List.length_pos.mpr hw
  have hidx : i % wl.words.length < wl.words.length := Nat.mod_lt _ hlen
  rw [List.get?_eq_get hidx, Option.getD_some] at he
  rw [← he]
  exact hcols _ (List.get_mem _ _ _)

lemma cycleTake_getD (wl : Wordlist) (hw : wl.words ≠ []) (i : Nat)
    (hi : i < wl.num_words) :
    (cycleTake wl).getD i [] = (wl.words.get? (i % wl.words.length)).getD [] := by
  unfold cycleTake
  rw [if_neg (fun h0 => hw (List.length_eq_zero.mp h0))]
  have h1 : ((List.range wl.num_words).map
      (fun j => (wl.words.get? (j % wl.words.length)).getD []))[i]? =
      some ((wl.words.get? (i % wl.words.length)).getD []) := by
    rw [List.getElem?_map, List.getElem?_range hi, Option.map_some']
  rw [List.getD_eq_getElem?_getD, h1, Option.getD_some]

lemma chooseAll_eq_some (sel : Nat → Nat) (cols : List (List (List Char)))
    (hcols : ∀ col ∈ cols, col ≠ []) :
    ∀ i, chooseAll sel i cols = some (chosenFrom sel i cols) := by
  induction cols with
  | nil => intro i; rfl
  | cons col rest ih =>
    intro i
    have hcol : col ≠ [] := hcols col (List.mem_cons_self col rest)
    have hlen : 0 < col.length := List.length_pos.mpr hcol
    have hidx : sel i % col.length < col.length := Nat.mod_lt _ hlen
    have hrest := ih (fun c hc => hcols c (List.mem_cons_of_mem col hc)) (i + 1)
    have hget := List.getElem?_eq_getElem hidx
    simp [chooseAll, chosenFrom, sliceChoose, hget, hrest]

lemma chosenFrom_length (sel : Nat → Nat) (cols : List (List (List Char))) :
    ∀ i, (chosenFrom sel i cols).length = cols.length := by
  induction cols with
  | nil => intro i; rfl
  | cons col rest ih => intro i; simp [chosenFrom, ih]

lemma chosenFrom_getD_mem (sel : Nat → Nat) (cols : List (List (List Char)))
    (hcols : ∀ col ∈ cols, col ≠ []) :
    ∀ i j, j < cols.length →
      (chosenFrom sel i cols).getD j [] ∈ cols.getD j [] := by
  induction cols with
  | nil =>
    intro i j hj
    simp at hj
  | cons col rest ih =>
    intro i j hj
    cases j with
    | zero =>
      simp only [chosenFrom, List.getD_cons_zero]
      exact get_mod_getD_mem col (sel i) (hcols col (List.mem_cons_self col rest))
    | succ j' =>
      simp only [chosenFrom, List.getD_cons_succ]
      exact ih (fun c hc => hcols c (List.mem_cons_of_mem col hc)) (i + 1) j'
        (by simpa using hj)

/-- C10: with at least one word slot, a nonempty words table and every column
nonempty, choose_words (the random draws abstracted into sel) returns the join
by dashes of exactly num_words components, where the component at position i is
an element of column i modulo the number of columns. -/
theorem choose_words_shape (wl : Wordlist) (sel : Nat → Nat)
    (_hn : 1 ≤ wl.num_words) (hw : wl.words ≠ [])
    (hcols : ∀ col ∈ wl.words, col ≠ []) :
    choose_words wl sel = some (joinDash (chosenComponents wl sel)) ∧
    (chosenComponents wl sel).length = wl.num_words ∧
    ∀ i, i < wl.num_words →
      (chosenComponents wl sel).getD i [] ∈ (wl.words.get? (i % wl.words.length)).getD [] := by
  have hcyc := cycleTake_cols_ne_nil wl hw hcols
  refine ⟨?_, ?_, ?_⟩
  · unfold choose_words
    rw [chooseAll_eq_some sel (cycleTake wl) hcyc 0, Option.map_some']
    rfl
  · unfold chosenComponents
    rw [chosenFrom_length sel (cycleTake wl) 0, cycleTake_length wl hw]
  · intro i hi
    have hj : i < (cycleTake wl).length := by
      rw [cycleTake_length wl hw]
      exact hi
    have hm := chosenFrom_getD_mem sel (cycleTake wl) hcyc 0 i hj
    rw [cycleTake_getD wl hw i hi] at hm
    exact hm

/-- Concrete word list for the C10 witness, with three slots over two columns. -/
def wlC : Wordlist := ⟨3, [[['p']], [['s']]]⟩

/-- C10 witness at a concrete word list and draw function. -/
theorem choose_words_shape_witness :
    choose_words wlC (fun _ => 0) = some (joinDash (chosenComponents wlC (fun _ => 0))) :=
  (choose_words_shape wlC (fun _ => 0) (by decide) (by decide) (by decide)).1
